import Mathlib

/-!
Verification of the mongoose-patch-history plugin (src/unnamed/part_000 and its
compiled form src/lib/index.js).

The development shallowly embeds the plugin's pure logic and its lifecycle
pipelines.  JSON documents are modelled by the mutual inductive `JVal`/`JFields`
(BSON arrays are outside the scope of the claims and are omitted); the external
diff engine `fast-json-patch.compare` is embedded by `jsonpatchCompare`
following its `_generate` algorithm; lodash `get`/`tail` and the JavaScript
string operations used by the plugin are embedded over `List Char`.

The MongoDB store itself is modelled as an in-memory list of documents with
`$set`-style updates; the mongoose hook pipelines (pre/post update, save,
remove) become pure state-transition functions over that store.
-/

mutual
inductive JVal where
  | null : JVal
  | bool : Bool → JVal
  | num : Int → JVal
  | str : String → JVal
  | obj : JFields → JVal
deriving Repr

inductive JFields where
  | nil : JFields
  | fcons : String → JVal → JFields → JFields
deriving Repr
end

mutual
def JVal.beq : JVal → JVal → Bool
  | .null, .null => true
  | .bool a, .bool b => a == b
  | .num a, .num b => a == b
  | .str a, .str b => a == b
  | .obj a, .obj b => JFields.beq a b
  | _, _ => false

def JFields.beq : JFields → JFields → Bool
  | .nil, .nil => true
  | .fcons k v r, .fcons k' v' r' => k == k' && JVal.beq v v' && JFields.beq r r'
  | _, _ => false
end

instance : BEq JVal := ⟨JVal.beq⟩

instance : BEq JFields := ⟨JFields.beq⟩

mutual
theorem JVal.eq_of_beq_val : ∀ {a b : JVal}, JVal.beq a b = true → a = b
  | .null, .null, _ => rfl
  | .bool a, .bool b, h => by simpa [JVal.beq] using h
  | .num a, .num b, h => by simpa [JVal.beq] using h
  | .str a, .str b, h => by simpa [JVal.beq] using h
  | .obj a, .obj b, h => by
      have := JFields.eq_of_beq_fields (a := a) (b := b) (by simpa [JVal.beq] using h)
      rw [this]
  | .null, .bool _, h => by simp [JVal.beq] at h
  | .null, .num _, h => by simp [JVal.beq] at h
  | .null, .str _, h => by simp [JVal.beq] at h
  | .null, .obj _, h => by simp [JVal.beq] at h
  | .bool _, .null, h => by simp [JVal.beq] at h
  | .bool _, .num _, h => by simp [JVal.beq] at h
  | .bool _, .str _, h => by simp [JVal.beq] at h
  | .bool _, .obj _, h => by simp [JVal.beq] at h
  | .num _, .null, h => by simp [JVal.beq] at h
  | .num _, .bool _, h => by simp [JVal.beq] at h
  | .num _, .str _, h => by simp [JVal.beq] at h
  | .num _, .obj _, h => by simp [JVal.beq] at h
  | .str _, .null, h => by simp [JVal.beq] at h
  | .str _, .bool _, h => by simp [JVal.beq] at h
  | .str _, .num _, h => by simp [JVal.beq] at h
  | .str _, .obj _, h => by simp [JVal.beq] at h
  | .obj _, .null, h => by simp [JVal.beq] at h
  | .obj _, .bool _, h => by simp [JVal.beq] at h
  | .obj _, .num _, h => by simp [JVal.beq] at h
  | .obj _, .str _, h => by simp [JVal.beq] at h

theorem JFields.eq_of_beq_fields : ∀ {a b : JFields}, JFields.beq a b = true → a = b
  | .nil, .nil, _ => rfl
  | .fcons k v r, .fcons k' v' r', h => by
      have h' : (k = k' ∧ JVal.beq v v' = true) ∧ JFields.beq r r' = true := by
        simpa [JFields.beq, Bool.and_eq_true] using h
      have hk : k = k' := h'.1.1
      have hv := JVal.eq_of_beq_val h'.1.2
      have hr := JFields.eq_of_beq_fields h'.2
      rw [hk, hv, hr]
  | .nil, .fcons _ _ _, h => by simp [JFields.beq] at h
  | .fcons _ _ _, .nil, h => by simp [JFields.beq] at h
end

mutual
theorem JVal.beq_refl_val : ∀ (a : JVal), JVal.beq a a = true
  | .null => rfl
  | .bool a => by simp [JVal.beq]
  | .num a => by simp [JVal.beq]
  | .str a => by simp [JVal.beq]
  | .obj a => by simpa [JVal.beq] using JFields.beq_refl_fields a

theorem JFields.beq_refl_fields : ∀ (a : JFields), JFields.beq a a = true
  | .nil => rfl
  | .fcons k v r => by
      simp [JFields.beq, JVal.beq_refl_val v, JFields.beq_refl_fields r]
end

instance : DecidableEq JVal := fun a b =>
  if h : JVal.beq a b = true then .isTrue (JVal.eq_of_beq_val h)
  else .isFalse (fun he => h (he ▸ JVal.beq_refl_val a))

instance : DecidableEq JFields := fun a b =>
  if h : JFields.beq a b = true then .isTrue (JFields.eq_of_beq_fields h)
  else .isFalse (fun he => h (he ▸ JFields.beq_refl_fields a))

instance : LawfulBEq JVal where
  eq_of_beq := JVal.eq_of_beq_val
  rfl := JVal.beq_refl_val _

instance : LawfulBEq JFields where
  eq_of_beq := JFields.eq_of_beq_fields
  rfl := JFields.beq_refl_fields _

/-- Property read on a JavaScript object: `undefined` is `none`. -/
def JFields.get? : JFields → String → Option JVal
  | .nil, _ => none
  | .fcons k v r, key => if k = key then some v else JFields.get? r key

def JFields.append : JFields → JFields → JFields
  | .nil, b => b
  | .fcons k v r, b => .fcons k v (JFields.append r b)

def JFields.keys : JFields → List String
  | .nil => []
  | .fcons k _ r => k :: JFields.keys r

def JFields.length : JFields → Nat
  | .nil => 0
  | .fcons _ _ r => JFields.length r + 1

mutual
/-- Well-formedness of a JavaScript value tree: every object level has
distinct keys (JavaScript objects can never carry a duplicate key). -/
def JVal.canon : JVal → Bool
  | .obj fs => JFields.canon fs
  | _ => true

/-- Well-formedness of a JavaScript object: distinct keys at every level. -/
def JFields.canon : JFields → Bool
  | .nil => true
  | .fcons k v r => (JFields.get? r k).isNone && JVal.canon v && JFields.canon r
end

/-- A scalar (non-object) JSON value. -/
def JVal.scalar : JVal → Bool
  | .obj _ => false
  | _ => true

/-- JavaScript truthiness of a defined value. -/
def JVal.truthy : JVal → Bool
  | .null => false
  | .bool b => b
  | .num n => n != 0
  | .str s => s ≠ ""
  | .obj _ => true

/-- JavaScript truthiness of a possibly-`undefined` value. -/
def jsTruthy : Option JVal → Bool
  | none => false
  | some v => v.truthy

/-- The JavaScript `a || b` operator on possibly-`undefined` values. -/
def jsOr (a b : Option JVal) : Option JVal :=
  if jsTruthy a then a else b

/-- Character-level split, modelling `String.prototype.split` with a
one-character separator. -/
def splitOnCharAux (sep : Char) : List Char → List (List Char)
  | [] => [[]]
  | c :: rest =>
    let r := splitOnCharAux sep rest
    if c = sep then [] :: r
    else
      match r with
      | [] => [[c]]
      | h :: t => (c :: h) :: t

def strSplit (sep : Char) (s : String) : List String :=
  (splitOnCharAux sep s.toList).map (fun cs => String.mk cs)

/-- `Array.prototype.join` with a one-character separator string. -/
def joinWith (sep : String) : List String → String
  | [] => ""
  | [x] => x
  | x :: xs => x ++ sep ++ joinWith sep xs

/-- `String.prototype.includes` with a one-character needle (used for the
`key.includes('$')` test). -/
def strHasChar (c : Char) (s : String) : Bool :=
  s.toList.contains c

/-- fast-json-patch `escapePathComponent`: `~` becomes `~0` and `/` becomes
`~1`. -/
def escapeChars : List Char → List Char
  | [] => []
  | c :: r =>
    if c = '~' then '~' :: '0' :: escapeChars r
    else if c = '/' then '~' :: '1' :: escapeChars r
    else c :: escapeChars r

def escapePathComponent (s : String) : String :=
  String.mk (escapeChars s.toList)

inductive OpKind where
  | add | remove | replace
deriving DecidableEq, Repr

/-- One JSON-patch operation.  `originalValue` is the annotation added by the
plugin's `trackOriginalValue` mode: `none` means the property was never set,
`some none` means it was set to `undefined`. -/
structure Op where
  op : OpKind
  path : String
  value : Option JVal := none
  originalValue : Option (Option JVal) := none
deriving DecidableEq, Repr

/-- The `add` operations of fast-json-patch `_generate`: one for every key of
the new object that is absent from the old one, in new-object key order. -/
def genAdds (o : JFields) (n : JFields) (path : String) : List Op :=
  match n with
  | .nil => []
  | .fcons k v rest =>
    (if JFields.get? o k = none then
       [{ op := .add, path := path ++ "/" ++ escapePathComponent k, value := some v }]
     else []) ++ genAdds o rest path

mutual
/-- fast-json-patch `_generate` on a pair of values: two objects are compared
key by key, anything else yields a single `replace` when unequal. -/
def genVal (oldV newV : JVal) (path : String) : List Op :=
  match oldV, newV with
  | .obj o, .obj n =>
    ((genOldFields o n path).reverse).flatten ++ genAdds o n path
  | _, _ =>
    if oldV == newV then []
    else [{ op := .replace, path := path, value := some newV }]
termination_by structural oldV

/-- The per-old-key operation blocks of `_generate`.  The source iterates the
old keys from the last to the first, which `genVal` renders by reversing the
blocks produced here in key order. -/
def genOldFields (o : JFields) (n : JFields) (path : String) : List (List Op) :=
  match o with
  | .nil => []
  | .fcons k v rest =>
    (match JFields.get? n k with
     | some nv => genVal v nv (path ++ "/" ++ escapePathComponent k)
     | none => [{ op := .remove, path := path ++ "/" ++ escapePathComponent k }]) ::
      genOldFields rest n path
termination_by structural o
end

/-- `jsonpatch.compare` of two plain objects, as called by `createPatch` on
the before and after snapshots. -/
def jsonpatchCompare (before after : JFields) : List Op :=
  genVal (.obj before) (.obj after) ""

/-- The path conversion in `createPatch`'s original-value tracking:
`tail(entry.path.split('/')).join('.')`. -/
def dottedOfPath (p : String) : String :=
  joinWith "." ((strSplit '/' p).tail)

/-- One step of the lodash `get` walk. -/
def getSeg (v : Option JVal) (k : String) : Option JVal :=
  match v with
  | some (.obj fs) => fs.get? k
  | _ => none

/-- lodash `get(object, path)` with a dotted string path; a lookup on
`undefined` yields `undefined`. -/
def lodashGet (v : Option JVal) (pathStr : String) : Option JVal :=
  (strSplit '.' pathStr).foldl getSeg v

/-- One entry of the `includes` option: the patch-record field `name`,
optionally read from a differently named source field (`from`). -/
structure IncludeSpec where
  name : String
  srcFrom : Option String := none
deriving DecidableEq, Repr

/-- The plugin options after merging with `defaultOptions` (the store
connector, model name and schema factory are consumed at setup only). -/
structure Options where
  removePatches : Bool := true
  trackOriginalValue : Bool := false
  includes : List IncludeSpec := []
deriving Repr

/-- The slice of a mongoose document instance that `createPatch` reads:
`_id`, `isNew`, the `_original` snapshot stashed by the hooks, and the
JSON-converted result of the `data()` instance method. -/
structure DocState where
  id : Nat
  isNew : Bool := false
  original : Option JFields := none
  data : JFields
deriving Repr

/-- `type.from || name`: the document field an included patch field reads
from. -/
def includeSourceName (s : IncludeSpec) : String :=
  match s.srcFrom with
  | some f => if f ≠ "" then f else s.name
  | none => s.name

/-- The diff computed by `createPatch`:
`jsonpatch.compare(document.isNew ? {} : document._original || {}, toJSON(document.data()))`.
`toJSON` is the identity here because `DocState.data` is already plain data. -/
def rawOps (isNew : Bool) (original : Option JFields) (after : JFields) : List Op :=
  jsonpatchCompare (if isNew then .nil else original.getD .nil) after

/-- The object `createPatch` looks original values up in:
`document.isNew ? {} : document._original` (possibly `undefined`). -/
def trackBase (isNew : Bool) (original : Option JFields) : Option JFields :=
  if isNew then some .nil else original

/-- Original-value tracking: when enabled, every operation is annotated with
`get(document.isNew ? {} : document._original, tail(path.split('/')).join('.'))`. -/
def annotateOps (tracking isNew : Bool) (original : Option JFields) (ops : List Op) : List Op :=
  if tracking then
    ops.map (fun entry =>
      { entry with originalValue :=
          (some (lodashGet ((trackBase isNew original).map JVal.obj) (dottedOfPath entry.path))) })
  else ops

/-- Assembly of the configured extra patch fields:
`data[name] = document[type.from || name] || queryOptions[type.from || name]`. -/
def assembleIncludes (includes : List IncludeSpec) (data : JFields) (queryOptions : JFields) :
    List (String × Option JVal) :=
  includes.map (fun s =>
    (s.name, jsOr (data.get? (includeSourceName s)) (queryOptions.get? (includeSourceName s))))

/-- A persisted patch record (the `date` field, filled by a schema default, is
not part of the logic under verification). -/
structure Patch where
  ref : Nat
  ops : List Op
  includes : List (String × Option JVal) := []
deriving DecidableEq, Repr

/-- `createPatch(document, queryOptions)`: compute the diff, return without
persisting when it is empty, otherwise annotate (if configured), assemble the
included fields and create the patch record. -/
def createPatch (options : Options) (document : DocState) (queryOptions : JFields) : Option Patch :=
  let ops := rawOps document.isNew document.original document.data
  if ops.isEmpty then none
  else some
    { ref := document.id,
      ops := annotateOps options.trackOriginalValue document.isNew document.original ops,
      includes := assembleIncludes options.includes document.data queryOptions }

/-- JS property assignment `target[k] = v`: an existing key keeps its position
and gets the new value, a new key is appended. -/
def assignField (target : JFields) (k : String) (v : JVal) : JFields :=
  match target with
  | .nil => .fcons k v .nil
  | .fcons k' v' r => if k' = k then .fcons k' v r else .fcons k' v' (assignField r k v)

/-- `Object.assign(target, source)` for one source object. -/
def objectAssign (target : JFields) : JFields → JFields
  | .nil => target
  | .fcons k v r => objectAssign (assignField target k v) r

def JFields.filterKeys (p : String → Bool) : JFields → JFields
  | .nil => .nil
  | .fcons k v r =>
    if p k then .fcons k v (JFields.filterKeys p r) else JFields.filterKeys p r

/-- `_update ? _update.$set || _update : _update`, as an object usable as an
`Object.assign` source (a truthy non-object source contributes no keys). -/
def updateOfRaw (_update : Option JFields) : Option JFields :=
  match _update with
  | none => none
  | some u =>
    match u.get? "$set" with
    | some (.obj s) => some s
    | some v => if v.truthy then none else some u
    | none => some u

/-- The compiled source of `mergeQueryConditionsWithUpdate`
(src/lib/index.js lines 282-291).  Its second line is
`var conditions = Object.assign({}, conditions, update)`: the initializer
reads the hoisted `conditions` variable itself, which is still `undefined`,
so the `_conditions` parameter is never consulted and only `update`'s keys
survive.  (In the ES-module source the same line is a `const`
self-reference, which would throw a TDZ ReferenceError when called.)
Afterwards every key containing `$` is deleted. -/
def mergeQueryConditionsWithUpdate (_conditions _update : Option JFields) : JFields :=
  let update := updateOfRaw _update
  let conditions := objectAssign .nil (match update with | none => .nil | some u => u)
  JFields.filterKeys (fun k => ¬ strHasChar '$' k) conditions

/-- Modelled from the spec (§4.3 step 2): "reconstruct a filter by merging the
original query conditions with the update's `$set` payload (or the whole
update payload if no `$set` is present), discarding any key that contains an
update operator".  This is the behaviour the function's own comment announces
and differs from the compiled code, which loses the original conditions. -/
def mergeQueryConditionsWithUpdateSpec (_conditions _update : Option JFields) : JFields :=
  let update := updateOfRaw _update
  let conditions :=
    objectAssign (objectAssign .nil (_conditions.getD .nil))
      (match update with | none => .nil | some u => u)
  JFields.filterKeys (fun k => ¬ strHasChar '$' k) conditions

/-- A document persisted in the store. -/
structure StoredDoc where
  id : Nat
  data : JFields
deriving DecidableEq, Repr

/-- The store: the tracked collection plus the companion patch collection. -/
structure DB where
  docs : List StoredDoc
  patches : List Patch
deriving DecidableEq, Repr

def JFields.allB (p : String → JVal → Bool) : JFields → Bool
  | .nil => true
  | .fcons k v r => p k v && JFields.allB p r

/-- Equality-style query filter: every condition key must equal the document's
value at that key. -/
def matchesFields (conds : JFields) (d : StoredDoc) : Bool :=
  conds.allB (fun k v => d.data.get? k == some v)

/-- The three filter shapes the post-phases re-query with. -/
inductive Cond where
  | fields (o : JFields)
  | byId (i : Nat)
  | byIds (ids : List Nat)

def condMatches : Cond → StoredDoc → Bool
  | .fields o, d => matchesFields o d
  | .byId i, d => d.id == i
  | .byIds ids, d => ids.contains d.id

/-- The `$set` payload of an update document. -/
def setPayload (update : JFields) : JFields :=
  match update.get? "$set" with
  | some (.obj s) => s
  | _ => .nil

/-- Existing fields of `d` with `$set` values substituted in place. -/
def applyExisting (s : JFields) : JFields → JFields
  | .nil => .nil
  | .fcons k v r => .fcons k ((s.get? k).getD v) (applyExisting s r)

/-- `$set` fields that do not yet exist on `d`, in payload order. -/
def newFields (s : JFields) (d : JFields) : JFields :=
  match s with
  | .nil => .nil
  | .fcons k v r =>
    if d.get? k = none then .fcons k v (newFields r d) else newFields r d

/-- MongoDB's application of a `$set` update to a document's fields. -/
def applySet (s d : JFields) : JFields :=
  JFields.append (applyExisting s d) (newFields s d)

/-- The slice of a MongoDB write result the hooks read (`{}` is modelled by
`nModified := none`, i.e. the property is undefined). -/
structure UpdateResult where
  nModified : Option Nat
  upserted : Bool
deriving DecidableEq, Repr

def docChanged (s : JFields) (d : StoredDoc) : Bool :=
  applySet s d.data != d.data

/-- The store executing a (non-upsert) update-many: every matching document
gets the `$set` applied; `nModified` counts the documents actually changed. -/
def mongoUpdateMany (db : DB) (conditions update : JFields) : DB × UpdateResult :=
  let s := setPayload update
  let nMod := (db.docs.filter (fun d => matchesFields conditions d && docChanged s d)).length
  ({ db with docs := db.docs.map (fun d =>
      if matchesFields conditions d then { d with data := applySet s d.data } else d) },
   { nModified := some nMod, upserted := false })

def updateFirst (p : StoredDoc → Bool) (f : StoredDoc → StoredDoc) :
    List StoredDoc → List StoredDoc
  | [] => []
  | d :: rest => if p d then f d :: rest else d :: updateFirst p f rest

/-- The store executing a (non-upsert) update-one: the first matching document
gets the `$set` applied. -/
def mongoUpdateOne (db : DB) (conditions update : JFields) : DB × UpdateResult :=
  let s := setPayload update
  match db.docs.find? (matchesFields conditions) with
  | some d =>
    ({ db with docs :=
        (updateFirst (matchesFields conditions)
          (fun e => { e with data := applySet s e.data }) db.docs) },
     { nModified := some (if docChanged s d then 1 else 0), upserted := false })
  | none => (db, { nModified := some 0, upserted := false })

/-- The fields the hooks stash on the in-flight query object (`this`). -/
structure QueryCtx where
  conditions : JFields
  update : JFields
  originalId : Option Nat := none
  original : Option JFields := none
  originalIds : List Nat := []
  originals : List JFields := []

/-- `preUpdateOne`: find the document currently matching `_conditions`; record
its `_id` when it exists, and snapshot it (or `new this.model({})`, whose
`data()` is the empty object — schema defaults are outside this model) into
`this._original`. -/
def preUpdateOne (db : DB) (conditions update : JFields) : QueryCtx :=
  match db.docs.find? (matchesFields conditions) with
  | some original =>
    { conditions := conditions, update := update,
      originalId := some original.id, original := some original.data }
  | none =>
    { conditions := conditions, update := update,
      originalId := none, original := some JFields.nil }

/-- `preUpdateMany`: snapshot ids and data of all documents currently matching
`_conditions`, in collection order. -/
def preUpdateMany (db : DB) (conditions update : JFields) : QueryCtx :=
  let originals := db.docs.filter (matchesFields conditions)
  { conditions := conditions, update := update,
    originalIds := originals.map (·.id), originals := originals.map (·.data) }

/-- `result.nModified === 0 && !result.upserted` (an undefined `nModified`
compares unequal to `0`). -/
def zeroModGuard (result : UpdateResult) : Bool :=
  result.nModified == some 0 && !result.upserted

/-- `postUpdateOne`: short-circuit on the zero-modified guard; re-resolve the
document by recorded `_originalId` or by the merged-conditions fallback,
attach the pre-phase snapshot and run `createPatch`.  The returned flag is
`true` exactly when the guard short-circuited the post-phase. -/
def postUpdateOne (options : Options) (ctx : QueryCtx) (result : UpdateResult) (db : DB)
    (queryOptions : JFields) : DB × Bool :=
  if zeroModGuard result then (db, true)
  else
    let conditions : Cond :=
      match ctx.originalId with
      | some i => .byId i
      | none => .fields (mergeQueryConditionsWithUpdate (some ctx.conditions) (some ctx.update))
    match db.docs.find? (condMatches conditions) with
    | none => (db, false)
    | some doc =>
      match createPatch options
          { id := doc.id, isNew := false, original := ctx.original, data := doc.data }
          queryOptions with
      | none => (db, false)
      | some p => ({ db with patches := db.patches ++ [p] }, false)

/-- `postUpdateMany`: short-circuit on the zero-modified guard; re-resolve the
affected documents by `{_id: {$in: this._originalIds}}` (or the
merged-conditions fallback when no id was recorded), pair each re-found
document positionally with `this._originals[i]` and run `createPatch` on
each. -/
def postUpdateMany (options : Options) (ctx : QueryCtx) (result : UpdateResult) (db : DB)
    (queryOptions : JFields) : DB × Bool :=
  if zeroModGuard result then (db, true)
  else
    let conditions : Cond :=
      if ctx.originalIds.length == 0 then
        .fields (mergeQueryConditionsWithUpdate (some ctx.conditions) (some ctx.update))
      else .byIds ctx.originalIds
    let docs := db.docs.filter (condMatches conditions)
    let newPatches := docs.enum.filterMap (fun p =>
      createPatch options
        { id := p.2.id, isNew := false, original := ctx.originals[p.1]?, data := p.2.data }
        queryOptions)
    ({ db with patches := db.patches ++ newPatches }, false)

/-- An update document of the form `{$set: {...}}`. -/
def mkSetUpdate (s : JFields) : JFields :=
  .fcons "$set" (.obj s) .nil

/-- The `updateOne` pathway: pre hook, store write, post hook. -/
def runUpdateOne (options : Options) (db : DB) (conditions setFields queryOptions : JFields) :
    DB × Bool :=
  let update := mkSetUpdate setFields
  let ctx := preUpdateOne db conditions update
  let step := mongoUpdateOne db conditions update
  postUpdateOne options ctx step.2 step.1 queryOptions

/-- The `findOneAndUpdate` pathway.  Its post hook discards the operation's
result and invokes `postUpdateOne` with `{}`, whose `nModified` reads as
undefined. -/
def runFindOneAndUpdate (options : Options) (db : DB)
    (conditions setFields queryOptions : JFields) : DB × Bool :=
  let update := mkSetUpdate setFields
  let ctx := preUpdateOne db conditions update
  let step := mongoUpdateOne db conditions update
  postUpdateOne options ctx { nModified := none, upserted := false } step.1 queryOptions

/-- The `updateMany` pathway: pre hook, store write, post hook. -/
def runUpdateMany (options : Options) (db : DB) (conditions setFields queryOptions : JFields) :
    DB × Bool :=
  let update := mkSetUpdate setFields
  let ctx := preUpdateMany db conditions update
  let step := mongoUpdateMany db conditions update
  postUpdateMany options ctx step.2 step.1 queryOptions

/-- The legacy `update` pathway dispatches on `this.options.multi` in both its
pre and post hook. -/
def runLegacyUpdate (options : Options) (multi : Bool) (db : DB)
    (conditions setFields queryOptions : JFields) : DB × Bool :=
  if multi then runUpdateMany options db conditions setFields queryOptions
  else runUpdateOne options db conditions setFields queryOptions

/-- The JavaScript failure mode the remove pathway can hit. -/
inductive JsError where
  | typeErrorNullDeref
deriving DecidableEq, Repr

/-- `deletePatches(document)`: destructures `document._id` — a `TypeError` on
a null document — then removes every patch whose `ref` equals that id. -/
def deletePatches (document : Option StoredDoc) (patches : List Patch) :
    Except JsError (List Patch) :=
  match document with
  | none => .error .typeErrorNullDeref
  | some d => .ok (patches.filter (fun p => p.ref != d.id))

/-- The document `remove` pathway: the pre hook cascades into `deletePatches`
unless `removePatches` is disabled, then the store removes the document. -/
def runRemove (options : Options) (db : DB) (doc : StoredDoc) : Except JsError DB :=
  if options.removePatches then
    match deletePatches (some doc) db.patches with
    | .error e => .error e
    | .ok ps => .ok { docs := db.docs.filter (fun d => d.id != doc.id), patches := ps }
  else .ok { docs := db.docs.filter (fun d => d.id != doc.id), patches := db.patches }

/-- The `findOneAndRemove` pathway: unless `removePatches` is disabled, the
pre hook resolves the target by `findOne(this._conditions)` and passes it —
possibly null — straight to `deletePatches`; an error there aborts the
operation. -/
def runFindOneAndRemove (options : Options) (db : DB) (conditions : JFields) :
    Except JsError DB :=
  if options.removePatches then
    match deletePatches (db.docs.find? (matchesFields conditions)) db.patches with
    | .error e => .error e
    | .ok ps => .ok { docs := db.docs.eraseP (matchesFields conditions), patches := ps }
  else .ok { docs := db.docs.eraseP (matchesFields conditions), patches := db.patches }

/-- The slice of the host schema the plugin's setup inspects. -/
structure SchemaInfo where
  hasDataMethod : Bool
  idType : Option String
deriving DecidableEq, Repr

/-- The plugin-attachment options before default merging. -/
structure PluginConfig where
  mongoose : Bool
  name : Option String
  removePatches : Option Bool := none
  trackOriginalValue : Option Bool := none
  includes : List IncludeSpec := []
deriving Repr

inductive SetupError where
  | missingMongoose | missingName | conflictingDataMethod | missingIdType
deriving DecidableEq, Repr

def jsTruthyName : Option String → Bool
  | none => false
  | some s => s ≠ ""

/-- `merge({}, defaultOptions, opts)`. -/
def mergedOptions (cfg : PluginConfig) : Options :=
  { removePatches := cfg.removePatches.getD true,
    trackOriginalValue := cfg.trackOriginalValue.getD false,
    includes := cfg.includes }

/-- The plugin's setup phase: the four `assert` calls run, in source order,
before any hook is registered and before the patch model is created, so a
failing one raises and nothing is installed.  On success the merged options
drive the installed hooks. -/
def plugin (schema : SchemaInfo) (cfg : PluginConfig) : Except SetupError Options :=
  if ¬ cfg.mongoose then .error .missingMongoose
  else if ¬ jsTruthyName cfg.name then .error .missingName
  else if schema.hasDataMethod then .error .conflictingDataMethod
  else if schema.idType = none then .error .missingIdType
  else .ok (mergedOptions cfg)

/-- Verification-side predicate: all values of a (flat) object are scalar. -/
def JFields.allScalar : JFields → Bool
  | .nil => true
  | .fcons _ v r => JVal.scalar v && JFields.allScalar r

/-- The documents an update-many both matches and actually changes (`s` is the
`$set` payload); `mongoUpdateMany` reports their number as `nModified`. -/
def modifiedDocs (db : DB) (conditions s : JFields) : List StoredDoc :=
  db.docs.filter (fun d => matchesFields conditions d && docChanged s d)

theorem foldl_getSeg_none : ∀ (segs : List String), segs.foldl getSeg none = none
  | [] => rfl
  | _ :: rest => foldl_getSeg_none rest

theorem splitOnCharAux_ne_nil : ∀ (sep : Char) (cs : List Char), splitOnCharAux sep cs ≠ []
  | _, [] => by simp [splitOnCharAux]
  | sep, c :: rest => by
      simp only [splitOnCharAux]
      split
      · simp
      · split <;> simp

theorem strSplit_ne_nil (sep : Char) (s : String) : strSplit sep s ≠ [] := by
  unfold strSplit
  intro h
  exact splitOnCharAux_ne_nil sep s.toList (List.map_eq_nil_iff.mp h)

theorem lodashGet_undefined (pathStr : String) : lodashGet none pathStr = none :=
  foldl_getSeg_none _

theorem lodashGet_emptyObj (pathStr : String) :
    lodashGet (some (.obj .nil)) pathStr = none := by
  unfold lodashGet
  cases h : strSplit '.' pathStr with
  | nil => exact absurd h (strSplit_ne_nil _ _)
  | cons a t => exact foldl_getSeg_none t

/-- C1: the post-phase filter reconstruction drops the original query
conditions.  At `_conditions = {page: 1}`, `_update = {$set: {title: "x"}}`
the code produces `{title: "x"}` — the hoisted `conditions` self-reference in
`Object.assign({}, conditions, update)` reads as undefined, so `page` is lost
— while the merge the function's own comment and the specification describe
would keep `{page: 1, title: "x"}`. -/
theorem c1_merge_drops_original_conditions :
    mergeQueryConditionsWithUpdate
        (some (.fcons "page" (.num 1) .nil))
        (some (.fcons "$set" (.obj (.fcons "title" (.str "x") .nil)) .nil))
      = .fcons "title" (.str "x") .nil
    ∧ mergeQueryConditionsWithUpdateSpec
        (some (.fcons "page" (.num 1) .nil))
        (some (.fcons "$set" (.obj (.fcons "title" (.str "x") .nil)) .nil))
      = .fcons "page" (.num 1) (.fcons "title" (.str "x") .nil)
    ∧ mergeQueryConditionsWithUpdate
        (some (.fcons "page" (.num 1) .nil))
        (some (.fcons "$set" (.obj (.fcons "title" (.str "x") .nil)) .nil))
      ≠ mergeQueryConditionsWithUpdateSpec
        (some (.fcons "page" (.num 1) .nil))
        (some (.fcons "$set" (.obj (.fcons "title" (.str "x") .nil)) .nil)) := by
  refine ⟨by decide, by decide, by decide⟩

/-- C6: the pre-phase baseline of a single-target update-by-query equals the
snapshot of the document currently matching the query filter, or the empty
object when no document matches (the upsert-creates-new case). -/
theorem c6_pre_update_one_baseline (db : DB) (conditions update : JFields) :
    (preUpdateOne db conditions update).original
      = some (match db.docs.find? (matchesFields conditions) with
              | some d => d.data
              | none => JFields.nil) := by
  unfold preUpdateOne
  cases db.docs.find? (matchesFields conditions) <;> rfl

/-- C4: `createPatch` persists a patch record if and only if the diff
computed between the before snapshot (`{}` for a new document, else
`_original || {}`) and the after state is non-empty. -/
theorem c4_patch_iff_diff_nonempty (options : Options) (document : DocState)
    (queryOptions : JFields) :
    (createPatch options document queryOptions).isSome = true
      ↔ jsonpatchCompare
          (if document.isNew then JFields.nil else document.original.getD JFields.nil)
          document.data ≠ [] := by
  unfold createPatch rawOps
  by_cases h : (jsonpatchCompare
      (if document.isNew then JFields.nil else document.original.getD JFields.nil)
      document.data).isEmpty
  · simp only [h, if_true]
    simpa using List.isEmpty_iff.mp h
  · simp only [h, if_false]
    simpa using fun he => h (by simp [he])

/-- C9: plugin attachment fails before anything is installed whenever the
store connector is missing, the name is missing, the schema already has a
`data` instance method, or the schema has no `_id` type: one of the four
source-order `assert` calls raises, and `plugin` returns an error without
registering a hook or creating the patch model. -/
theorem c9_setup_failure (schema : SchemaInfo) (cfg : PluginConfig)
    (h : cfg.mongoose = false ∨ jsTruthyName cfg.name = false
        ∨ schema.hasDataMethod = true ∨ schema.idType = none) :
    ∃ e, plugin schema cfg = .error e := by
  by_cases h1 : cfg.mongoose
  · by_cases h2 : jsTruthyName cfg.name
    · by_cases h3 : schema.hasDataMethod
      · exact ⟨.conflictingDataMethod, by simp [plugin, h1, h2, h3]⟩
      · by_cases h4 : schema.idType = none
        · exact ⟨.missingIdType, by simp [plugin, h1, h2, h3, h4]⟩
        · rcases h with h | h | h | h <;> simp_all
    · exact ⟨.missingName, by simp [plugin, h1, h2]⟩
  · exact ⟨.missingMongoose, by simp [plugin, h1]⟩

theorem c9_setup_failure_witness :
    (({ hasDataMethod := true, idType := some "ObjectId" } : SchemaInfo).hasDataMethod = true)
    ∧ ∃ e, plugin { hasDataMethod := true, idType := some "ObjectId" }
        { mongoose := true, name := some "Patches" } = .error e :=
  ⟨by decide,
   c9_setup_failure _ _ (Or.inr (Or.inr (Or.inl (by decide))))⟩

/-- C10: a `findOneAndRemove` with `removePatches` enabled whose filter
matches no document fails: the pre hook passes the null `findOne` result to
`deletePatches`, which dereferences it, and the error propagates through
`.catch(next)`, aborting the operation instead of completing as a no-op. -/
theorem c10_remove_missing_target_fails (options : Options) (db : DB) (conditions : JFields)
    (hrp : options.removePatches = true)
    (hmiss : db.docs.find? (matchesFields conditions) = none) :
    runFindOneAndRemove options db conditions = .error .typeErrorNullDeref := by
  unfold runFindOneAndRemove
  rw [hmiss]
  simp [hrp, deletePatches]

theorem c10_remove_missing_target_fails_witness :
    (({} : Options).removePatches = true
      ∧ ({ docs := [], patches := [] } : DB).docs.find? (matchesFields .nil) = none)
    ∧ runFindOneAndRemove {} { docs := [], patches := [] } .nil
        = .error .typeErrorNullDeref :=
  ⟨⟨rfl, rfl⟩, c10_remove_missing_target_fails _ _ _ rfl rfl⟩

/-- C8: removing a document with `removePatches` enabled leaves zero patch
records carrying the removed document's id as `ref`; with it disabled the
patch collection is left entirely unchanged. -/
theorem c8_remove_patch_cascade (options : Options) (db : DB) (doc : StoredDoc) :
    (options.removePatches = true →
      ∃ db', runRemove options db doc = .ok db'
        ∧ db'.patches.filter (fun p => p.ref == doc.id) = [])
    ∧ (options.removePatches = false →
      ∃ db', runRemove options db doc = .ok db' ∧ db'.patches = db.patches) := by
  constructor
  · intro h
    refine ⟨{ docs := db.docs.filter (fun d => d.id != doc.id),
              patches := db.patches.filter (fun p => p.ref != doc.id) }, ?_, ?_⟩
    · simp [runRemove, h, deletePatches]
    · rw [List.filter_filter]
      have : ∀ p : Patch, ((p.ref == doc.id) && (p.ref != doc.id)) = false := by
        intro p
        by_cases hp : p.ref == doc.id <;> simp [bne, hp]
      simp only [this]
      exact List.filter_false _
  · intro h
    exact ⟨{ docs := db.docs.filter (fun d => d.id != doc.id), patches := db.patches },
      by simp [runRemove, h], rfl⟩

theorem c8_remove_patch_cascade_witness :
    (∃ db',
      runRemove {}
          { docs := [{ id := 1, data := .nil }],
            patches := [{ ref := 1, ops := [{ op := .remove, path := "/t" }] },
              { ref := 2, ops := [{ op := .remove, path := "/u" }] }] }
          { id := 1, data := .nil }
        = .ok db'
      ∧ db'.patches.filter (fun p => p.ref == 1) = [])
    ∧ (∃ db',
      runRemove { removePatches := false }
          { docs := [{ id := 1, data := .nil }],
            patches := [{ ref := 1, ops := [{ op := .remove, path := "/t" }] }] }
          { id := 1, data := .nil }
        = .ok db'
      ∧ db'.patches = [{ ref := 1, ops := [{ op := .remove, path := "/t" }] }]) :=
  ⟨(c8_remove_patch_cascade {}
      { docs := [{ id := 1, data := .nil }],
        patches := [{ ref := 1, ops := [{ op := .remove, path := "/t" }] },
          { ref := 2, ops := [{ op := .remove, path := "/u" }] }] }
      { id := 1, data := .nil }).1 rfl,
   (c8_remove_patch_cascade { removePatches := false }
      { docs := [{ id := 1, data := .nil }],
        patches := [{ ref := 1, ops := [{ op := .remove, path := "/t" }] }] }
      { id := 1, data := .nil }).2 rfl⟩

/-- C5 counterexample: the document field `user` is present with the (falsy)
value `false`, yet the persisted included field takes the query-time option
value `"alice"` — the `||` fallback fires on any falsy present value, not
only on absent fields, refuting the "if and only if absent" reading. -/
theorem c5_counterexample_falsy_present_field :
    JFields.get? (.fcons "title" (.str "B") (.fcons "user" (.bool false) .nil)) "user"
        = some (.bool false)
    ∧ createPatch { includes := [{ name := "user" }] }
        { id := 1, isNew := false, original := some (.fcons "title" (.str "A") .nil),
          data := .fcons "title" (.str "B") (.fcons "user" (.bool false) .nil) }
        (.fcons "user" (.str "alice") .nil)
      = some { ref := 1,
               ops := [{ op := .replace, path := "/title", value := some (.str "B") },
                       { op := .add, path := "/user", value := some (.bool false) }],
               includes := [("user", some (.str "alice"))] } := by
  refine ⟨by decide, by decide⟩

/-- C5 amended: each configured included field reads the document field named
by the source alias (or the include's own name), and the query-time option
value under that same source name is used instead exactly when the document's
value there is falsy — absent, undefined, null, false, 0 or the empty string
— not only when it is absent. -/
theorem c5_include_fallback_on_falsy (options : Options) (document : DocState)
    (queryOptions : JFields) (p : Patch)
    (hp : createPatch options document queryOptions = some p) :
    p.includes = options.includes.map (fun s =>
      (s.name,
        if jsTruthy (JFields.get? document.data (includeSourceName s)) = true
        then JFields.get? document.data (includeSourceName s)
        else JFields.get? queryOptions (includeSourceName s))) := by
  unfold createPatch at hp
  by_cases h : (rawOps document.isNew document.original document.data).isEmpty = true
  · rw [if_pos h] at hp
    exact absurd hp (by simp)
  · rw [if_neg h] at hp
    rw [← Option.some.inj hp]
    simp [assembleIncludes, jsOr]

theorem c5_include_fallback_on_falsy_witness :
    createPatch { includes := [{ name := "user" }] }
        { id := 1, isNew := false, original := some (.fcons "title" (.str "A") .nil),
          data := .fcons "title" (.str "B") (.fcons "user" (.bool false) .nil) }
        (.fcons "user" (.str "alice") .nil)
      = some { ref := 1,
               ops := [{ op := .replace, path := "/title", value := some (.str "B") },
                       { op := .add, path := "/user", value := some (.bool false) }],
               includes := [("user", some (.str "alice"))] }
    ∧ ({ ref := 1,
         ops := [{ op := .replace, path := "/title", value := some (.str "B") },
                 { op := .add, path := "/user", value := some (.bool false) }],
         includes := [("user", some (.str "alice"))] } : Patch).includes
      = [{ name := "user", srcFrom := none }].map (fun s =>
          (s.name,
            if jsTruthy (JFields.get?
                (.fcons "title" (.str "B") (.fcons "user" (.bool false) .nil))
                (includeSourceName s)) = true
            then JFields.get? (.fcons "title" (.str "B") (.fcons "user" (.bool false) .nil))
              (includeSourceName s)
            else JFields.get? (.fcons "user" (.str "alice") .nil) (includeSourceName s))) :=
  ⟨by decide,
   c5_include_fallback_on_falsy { includes := [{ name := "user" }] }
     { id := 1, isNew := false, original := some (.fcons "title" (.str "A") .nil),
       data := .fcons "title" (.str "B") (.fcons "user" (.bool false) .nil) }
     (.fcons "user" (.str "alice") .nil)
     { ref := 1,
       ops := [{ op := .replace, path := "/title", value := some (.str "B") },
               { op := .add, path := "/user", value := some (.bool false) }],
       includes := [("user", some (.str "alice"))] }
     (by decide)⟩

theorem genAdds_subset : ∀ (o n : JFields) (path : String),
    (∀ k, (JFields.get? n k).isSome = true → (JFields.get? o k).isSome = true) →
    genAdds o n path = []
  | _, .nil, _, _ => rfl
  | o, .fcons k v r, path, h => by
      have hk : (JFields.get? o k).isSome = true := h k (by simp [JFields.get?])
      have hr := genAdds_subset o r path (fun k' hk' => by
        apply h k'
        by_cases hkk : k = k'
        · simp [JFields.get?, hkk]
        · simpa [JFields.get?, hkk] using hk')
      have hne : JFields.get? o k ≠ none := by
        simpa [Option.isSome_iff_ne_none] using hk
      simp [genAdds, hne, hr]

theorem flatten_replicate_nil : ∀ (n : Nat), (List.replicate n ([] : List Op)).flatten = []
  | 0 => rfl
  | n + 1 => by
      rw [List.replicate_succ, List.flatten_cons, flatten_replicate_nil n]
      rfl

mutual
theorem genVal_self : ∀ (v : JVal) (path : String), JVal.canon v = true → genVal v v path = []
  | .null, _, _ => rfl
  | .bool _, _, _ => by simp [genVal]
  | .num _, _, _ => by simp [genVal]
  | .str _, _, _ => by simp [genVal]
  | .obj fs, path, h => by
      have hc : JFields.canon fs = true := by simpa [JVal.canon] using h
      have h1 := genOldFields_covered fs fs path (fun _ _ hk => hk) hc
      have h2 := genAdds_subset fs fs path (fun _ hk => hk)
      simp [genVal, h1, h2, List.reverse_replicate, flatten_replicate_nil]

theorem genOldFields_covered : ∀ (o n : JFields) (path : String),
    (∀ k val, JFields.get? o k = some val → JFields.get? n k = some val) →
    JFields.canon o = true →
    genOldFields o n path = List.replicate o.length []
  | .nil, _, _, _, _ => rfl
  | .fcons k v rest, n, path, hsub, hc => by
      have hc' : (JFields.get? rest k).isNone = true
          ∧ JVal.canon v = true ∧ JFields.canon rest = true := by
        simpa [JFields.canon, Bool.and_eq_true, and_assoc] using hc
      have hk : JFields.get? n k = some v := hsub k v (by simp [JFields.get?])
      have hblock := genVal_self v (path ++ "/" ++ escapePathComponent k) hc'.2.1
      have hrest := genOldFields_covered rest n path
        (fun k' val hk' => by
          have hne : k ≠ k' := by
            intro he
            subst he
            rw [hk'] at hc'
            simpa using hc'.1
          exact hsub k' val (by simpa [JFields.get?, hne] using hk'))
        hc'.2.2
      simp [genOldFields, hk, hblock, hrest, JFields.length, List.replicate_succ]
end

/-- `jsonpatch.compare` of any well-formed object with itself is empty. -/
theorem jsonpatchCompare_self (d : JFields) (h : JFields.canon d = true) :
    jsonpatchCompare d d = [] := by
  have := genVal_self (.obj d) "" (by simpa [JVal.canon] using h)
  simpa [jsonpatchCompare] using this

/-- C7: with original-value tracking enabled, every operation of a persisted
patch is annotated with
`get(document.isNew ? {} : document._original, tail(path.split('/')).join('.'))`
— the value found in the before snapshot by converting the operation's
slash-separated path into a dotted field path; for a new document the lookup
runs against the empty object and yields undefined. -/
theorem c7_tracked_original_value (options : Options) (document : DocState)
    (queryOptions : JFields) (p : Patch) (entry : Op)
    (htrack : options.trackOriginalValue = true)
    (hp : createPatch options document queryOptions = some p)
    (hmem : entry ∈ p.ops) :
    entry.originalValue
      = some (lodashGet ((trackBase document.isNew document.original).map JVal.obj)
          (dottedOfPath entry.path))
    ∧ (document.isNew = true → entry.originalValue = some none) := by
  unfold createPatch at hp
  by_cases h : (rawOps document.isNew document.original document.data).isEmpty = true
  · rw [if_pos h] at hp
    exact absurd hp (by simp)
  · rw [if_neg h] at hp
    have hops : p.ops = annotateOps options.trackOriginalValue document.isNew document.original
        (rawOps document.isNew document.original document.data) := by
      rw [← Option.some.inj hp]
    rw [htrack] at hops
    simp only [annotateOps, if_true] at hops
    rw [hops] at hmem
    obtain ⟨e, _, rfl⟩ := List.mem_map.mp hmem
    refine ⟨rfl, fun hnew => ?_⟩
    rw [hnew]
    simp [trackBase, lodashGet_emptyObj]

theorem c7_tracked_original_value_witness :
    (({ trackOriginalValue := true } : Options).trackOriginalValue = true
      ∧ createPatch { trackOriginalValue := true }
          { id := 1, isNew := false, original := some (.fcons "title" (.str "A") .nil),
            data := .fcons "title" (.str "B") .nil } .nil
        = some { ref := 1,
                 ops := [{ op := .replace, path := "/title", value := some (.str "B"),
                           originalValue := some (some (.str "A")) }] }
      ∧ ({ op := .replace, path := "/title", value := some (.str "B"),
           originalValue := some (some (.str "A")) } : Op)
          ∈ ({ ref := 1,
               ops := [{ op := .replace, path := "/title", value := some (.str "B"),
                         originalValue := some (some (.str "A")) }] } : Patch).ops)
    ∧ (some (some (JVal.str "A")) : Option (Option JVal))
        = some (lodashGet ((trackBase false (some (.fcons "title" (.str "A") .nil))).map
            JVal.obj)
          (dottedOfPath "/title")) :=
  ⟨⟨rfl, by decide, by decide⟩,
   (c7_tracked_original_value { trackOriginalValue := true }
     { id := 1, isNew := false, original := some (.fcons "title" (.str "A") .nil),
       data := .fcons "title" (.str "B") .nil } .nil
     { ref := 1,
       ops := [{ op := .replace, path := "/title", value := some (.str "B"),
                 originalValue := some (some (.str "A")) }] }
     { op := .replace, path := "/title", value := some (.str "B"),
       originalValue := some (some (.str "A")) }
     rfl (by decide) (by decide)).1⟩

theorem setPayload_mkSetUpdate (s : JFields) : setPayload (mkSetUpdate s) = s := by
  simp [setPayload, mkSetUpdate, JFields.get?]

theorem updateFirst_fixed : ∀ (l : List StoredDoc) (p : StoredDoc → Bool)
    (f : StoredDoc → StoredDoc),
    (∀ d, l.find? p = some d → f d = d) → updateFirst p f l = l
  | [], _, _, _ => rfl
  | d :: rest, p, f, h => by
      by_cases hp : p d
      · have hd := h d (by rw [List.find?_cons_of_pos _ hp])
        simp [updateFirst, hp, hd]
      · have hrec := updateFirst_fixed rest p f (fun e he => h e (by
          rw [List.find?_cons_of_neg _ (by simpa using hp)]
          exact he))
        simp [updateFirst, hp, hrec]

theorem find_by_id_of_nodup : ∀ (l : List StoredDoc) (d : StoredDoc),
    (l.map StoredDoc.id).Nodup → d ∈ l →
    l.find? (fun e => e.id == d.id) = some d
  | [], _, _, hd => by simp at hd
  | a :: rest, d, hnodup, hd => by
      have hnodup' : a.id ∉ rest.map StoredDoc.id ∧ (rest.map StoredDoc.id).Nodup := by
        simpa [List.nodup_cons] using hnodup
      rcases List.mem_cons.mp hd with rfl | hd'
      · exact List.find?_cons_of_pos _ (by simp)
      · have hne2 : (a.id == d.id) = false := by
          by_contra hcon
          have he : a.id = d.id := by
            have : (a.id == d.id) = true := by
              cases hb : (a.id == d.id) with
              | true => rfl
              | false => exact absurd hb hcon
            simpa using this
          exact hnodup'.1 (he ▸ List.mem_map_of_mem _ hd')
        have hrec := find_by_id_of_nodup rest d hnodup'.2 hd'
        simp [List.find?, hne2, hrec]

/-- C3 counterexample: a `findOneAndUpdate` whose store result reports zero
modified documents and no upsert, yet whose post-phase is not short-circuited
(the post hook substitutes `{}` for the result, and `{}.nModified === 0` is
false).  The same single-document input on the `updateOne` pathway does
short-circuit.  The final conjunct shows the claim's "no patch record is
created" part also failing on this pathway: with a non-matching filter the
merged-conditions fallback re-resolves an untouched document and persists a
patch for it even though the operation modified nothing. -/
theorem c3_counterexample_find_one_and_update_runs :
    (mongoUpdateOne
        { docs := [{ id := 1, data := .fcons "title" (.str "A") .nil }], patches := [] }
        (.fcons "title" (.str "A") .nil)
        (mkSetUpdate (.fcons "title" (.str "A") .nil))).2
      = { nModified := some 0, upserted := false }
    ∧ (runFindOneAndUpdate {}
        { docs := [{ id := 1, data := .fcons "title" (.str "A") .nil }], patches := [] }
        (.fcons "title" (.str "A") .nil) (.fcons "title" (.str "A") .nil) .nil).2 = false
    ∧ (runUpdateOne {}
        { docs := [{ id := 1, data := .fcons "title" (.str "A") .nil }], patches := [] }
        (.fcons "title" (.str "A") .nil) (.fcons "title" (.str "A") .nil) .nil).2 = true
    ∧ (mongoUpdateOne
        { docs := [{ id := 5, data := .fcons "title" (.str "x") .nil }], patches := [] }
        (.fcons "a" (.num 1) .nil)
        (mkSetUpdate (.fcons "title" (.str "x") .nil))).2
      = { nModified := some 0, upserted := false }
    ∧ (runFindOneAndUpdate {}
        { docs := [{ id := 5, data := .fcons "title" (.str "x") .nil }], patches := [] }
        (.fcons "a" (.num 1) .nil) (.fcons "title" (.str "x") .nil) .nil).1.patches
      = [{ ref := 5, ops := [{ op := .add, path := "/title", value := some (.str "x") }] }] := by
  refine ⟨by decide, by decide, by decide, by decide, by decide⟩

/-- C3 amended: the zero-modified-no-upsert guard skips the post-phase on the
`updateOne`, `updateMany` and legacy `update` pathways (which share these post
functions).  The `findOneAndUpdate` post hook however replaces the operation's
result with `{}`, so its guard never fires and its post-phase always runs;
when the pre-phase recorded a concrete matching document and the update left
it unchanged the post-phase still persists nothing (its diff is empty), but
the post-phase is not skipped. -/
theorem c3_zero_modified_guard :
    (∀ (options : Options) (ctx : QueryCtx) (db : DB) (queryOptions : JFields),
        postUpdateOne options ctx { nModified := some 0, upserted := false } db queryOptions
          = (db, true))
    ∧ (∀ (options : Options) (ctx : QueryCtx) (db : DB) (queryOptions : JFields),
        postUpdateMany options ctx { nModified := some 0, upserted := false } db queryOptions
          = (db, true))
    ∧ (∀ (options : Options) (db : DB) (conditions setFields queryOptions : JFields)
        (d : StoredDoc),
        db.docs.find? (matchesFields conditions) = some d →
        (db.docs.map StoredDoc.id).Nodup →
        JFields.canon d.data = true →
        applySet setFields d.data = d.data →
        (runFindOneAndUpdate options db conditions setFields queryOptions).2 = false
        ∧ (runFindOneAndUpdate options db conditions setFields queryOptions).1.patches
            = db.patches) := by
  refine ⟨fun options ctx db qopts => by simp [postUpdateOne, zeroModGuard],
          fun options ctx db qopts => by simp [postUpdateMany, zeroModGuard],
          fun options db conditions setFields qopts d hfind hnodup hcanon hfix => ?_⟩
  have hmem : d ∈ db.docs := List.mem_of_find?_eq_some hfind
  have hctx : preUpdateOne db conditions (mkSetUpdate setFields)
      = { conditions := conditions, update := mkSetUpdate setFields,
          originalId := some d.id, original := some d.data } := by
    unfold preUpdateOne
    rw [hfind]
  have hmongo : (mongoUpdateOne db conditions (mkSetUpdate setFields)).1 = db := by
    unfold mongoUpdateOne
    rw [hfind]
    have hup : updateFirst (matchesFields conditions)
        (fun e => { e with data := applySet (setPayload (mkSetUpdate setFields)) e.data })
        db.docs = db.docs := by
      apply updateFirst_fixed
      intro e he
      rw [hfind] at he
      obtain rfl := Option.some.inj he
      show ({ d with data := applySet (setPayload (mkSetUpdate setFields)) d.data } : StoredDoc)
        = d
      rw [setPayload_mkSetUpdate, hfix]
    simp [hup]
  have hfind2 : db.docs.find? (condMatches (.byId d.id)) = some d := by
    have := find_by_id_of_nodup db.docs d hnodup hmem
    simpa [condMatches] using this
  have hcp : createPatch options
      { id := d.id, isNew := false, original := some d.data, data := d.data } qopts = none := by
    unfold createPatch
    have hraw : rawOps false (some d.data) d.data = [] := by
      unfold rawOps
      simpa using jsonpatchCompare_self d.data hcanon
    simp [hraw]
  have hpost : postUpdateOne options
      { conditions := conditions, update := mkSetUpdate setFields,
        originalId := some d.id, original := some d.data }
      { nModified := none, upserted := false } db qopts = (db, false) := by
    unfold postUpdateOne
    rw [if_neg (by simp [zeroModGuard])]
    dsimp only
    rw [hfind2]
    simp only [hcp]
  have hrun : runFindOneAndUpdate options db conditions setFields qopts = (db, false) := by
    unfold runFindOneAndUpdate
    dsimp only
    rw [hctx, hmongo, hpost]
  rw [hrun]
  exact ⟨rfl, rfl⟩

theorem c3_zero_modified_guard_witness :
    postUpdateOne {} { conditions := .nil, update := .nil }
        { nModified := some 0, upserted := false } { docs := [], patches := [] } .nil
      = ({ docs := [], patches := [] }, true)
    ∧ ((runFindOneAndUpdate {}
          { docs := [{ id := 1, data := .fcons "title" (.str "A") .nil }], patches := [] }
          (.fcons "title" (.str "A") .nil) (.fcons "title" (.str "A") .nil) .nil).2 = false
      ∧ (runFindOneAndUpdate {}
          { docs := [{ id := 1, data := .fcons "title" (.str "A") .nil }], patches := [] }
          (.fcons "title" (.str "A") .nil) (.fcons "title" (.str "A") .nil) .nil).1.patches
        = ({ docs := [{ id := 1, data := .fcons "title" (.str "A") .nil }],
             patches := [] } : DB).patches) :=
  ⟨c3_zero_modified_guard.1 {} { conditions := .nil, update := .nil } _ .nil,
   c3_zero_modified_guard.2.2 {} _ _ _ .nil { id := 1, data := .fcons "title" (.str "A") .nil }
     (by decide) (by decide) (by decide) (by decide)⟩

theorem scalar_of_allScalar : ∀ (s : JFields), JFields.allScalar s = true →
    ∀ k v, JFields.get? s k = some v → JVal.scalar v = true
  | .nil, _, _, _, h => by simp [JFields.get?] at h
  | .fcons k' v' r, hall, k, v, h => by
      have hall' : JVal.scalar v' = true ∧ JFields.allScalar r = true := by
        simpa [JFields.allScalar, Bool.and_eq_true] using hall
      by_cases hk : k' = k
      · rw [show JFields.get? (.fcons k' v' r) k = some v' from by simp [JFields.get?, hk]] at h
        obtain rfl := Option.some.inj h
        exact hall'.1
      · exact scalar_of_allScalar r hall'.2 k v (by simpa [JFields.get?, hk] using h)

theorem genVal_scalar_eq : ∀ (v u : JVal) (p : String), JVal.scalar u = true →
    genVal v u p = if v == u then [] else [{ op := .replace, path := p, value := some u }]
  | .null, .null, _, _ => rfl
  | .null, .bool _, _, _ => rfl
  | .null, .num _, _, _ => rfl
  | .null, .str _, _, _ => rfl
  | .bool _, .null, _, _ => rfl
  | .bool _, .bool _, _, _ => rfl
  | .bool _, .num _, _, _ => rfl
  | .bool _, .str _, _, _ => rfl
  | .num _, .null, _, _ => rfl
  | .num _, .bool _, _, _ => rfl
  | .num _, .num _, _, _ => rfl
  | .num _, .str _, _, _ => rfl
  | .str _, .null, _, _ => rfl
  | .str _, .bool _, _, _ => rfl
  | .str _, .num _, _, _ => rfl
  | .str _, .str _, _, _ => rfl
  | .obj _, .null, _, _ => rfl
  | .obj _, .bool _, _, _ => rfl
  | .obj _, .num _, _, _ => rfl
  | .obj _, .str _, _, _ => rfl
  | _, .obj _, _, hu => by simp [JVal.scalar] at hu

theorem eq_of_genVal_nil_scalar (v u : JVal) (p : String) (hu : JVal.scalar u = true)
    (h : genVal v u p = []) : v = u := by
  rw [genVal_scalar_eq v u p hu] at h
  by_cases hvu : (v == u) = true
  · exact JVal.eq_of_beq_val hvu
  · rw [if_neg hvu] at h
    exact absurd h (by simp)

theorem applyExisting_get : ∀ (s d : JFields) (k : String),
    JFields.get? (applyExisting s d) k
      = (JFields.get? d k).map (fun v => (JFields.get? s k).getD v)
  | _, .nil, _ => rfl
  | s, .fcons k' v r, k => by
      by_cases h : k' = k
      · subst h
        simp [applyExisting, JFields.get?]
      · simp [applyExisting, JFields.get?, h, applyExisting_get s r k]

theorem JFields.append_nil : ∀ (a : JFields), JFields.append a .nil = a
  | .nil => rfl
  | .fcons k v r => by simp [JFields.append, JFields.append_nil r]

theorem genAdds_append_distrib : ∀ (o a b : JFields) (p : String),
    genAdds o (JFields.append a b) p = genAdds o a p ++ genAdds o b p
  | _, .nil, _, _ => rfl
  | o, .fcons k v r, b, p => by
      show genAdds o (.fcons k v (JFields.append r b)) p = _
      simp [genAdds, genAdds_append_distrib o r b p, List.append_assoc]

theorem newFields_nil_of_genAdds : ∀ (s d : JFields) (p : String),
    genAdds d (newFields s d) p = [] → newFields s d = JFields.nil
  | .nil, _, _, _ => rfl
  | .fcons k v r, d, p, h => by
      by_cases hd : JFields.get? d k = none
      · exfalso
        rw [show newFields (.fcons k v r) d = .fcons k v (newFields r d) from by
            simp [newFields, hd]] at h
        simp [genAdds, hd] at h
      · rw [show newFields (.fcons k v r) d = newFields r d from by simp [newFields, hd]] at h ⊢
        exact newFields_nil_of_genAdds r d p h

theorem applyExisting_fixed_of_blocks : ∀ (d n : JFields) (path : String) (s : JFields),
    JFields.canon d = true →
    (∀ k v, JFields.get? s k = some v → JVal.scalar v = true) →
    (∀ k v, JFields.get? d k = some v →
      JFields.get? n k = some ((JFields.get? s k).getD v)) →
    (∀ b ∈ genOldFields d n path, b = []) →
    applyExisting s d = d
  | .nil, _, _, _, _, _, _, _ => rfl
  | .fcons k v rest, n, path, s, hc, hscal, hsub, hblocks => by
      have hc' : (JFields.get? rest k).isNone = true
          ∧ JVal.canon v = true ∧ JFields.canon rest = true := by
        simpa [JFields.canon, Bool.and_eq_true, and_assoc] using hc
      have hk : JFields.get? n k = some ((JFields.get? s k).getD v) :=
        hsub k v (by simp [JFields.get?])
      have hunfold : genOldFields (.fcons k v rest) n path
          = genVal v ((JFields.get? s k).getD v) (path ++ "/" ++ escapePathComponent k)
            :: genOldFields rest n path := by
        simp [genOldFields, hk]
      have hblock : genVal v ((JFields.get? s k).getD v)
          (path ++ "/" ++ escapePathComponent k) = [] :=
        hblocks _ (by rw [hunfold]; exact List.mem_cons_self _ _)
      have hfix : (JFields.get? s k).getD v = v := by
        cases hs : JFields.get? s k with
        | none => rfl
        | some u =>
            rw [hs] at hblock
            have hvu := eq_of_genVal_nil_scalar v u _ (hscal k u hs) (by simpa using hblock)
            simp [hvu]
      have hrest := applyExisting_fixed_of_blocks rest n path s hc'.2.2 hscal
        (fun k' v' hk' => by
          have hne : k ≠ k' := by
            intro he
            subst he
            rw [hk'] at hc'
            simpa using hc'.1
          exact hsub k' v' (by simpa [JFields.get?, hne] using hk'))
        (fun b hb => hblocks b (by rw [hunfold]; exact List.mem_cons_of_mem _ hb))
      show JFields.fcons k ((JFields.get? s k).getD v) (applyExisting s rest)
        = JFields.fcons k v rest
      rw [hfix, hrest]

theorem applySet_fixed_of_compare_nil (s d : JFields)
    (hc : JFields.canon d = true)
    (hscal : ∀ k v, JFields.get? s k = some v → JVal.scalar v = true)
    (h : jsonpatchCompare d (applySet s d) = []) :
    applySet s d = d := by
  have h2 : ((genOldFields d (applySet s d) "").reverse).flatten = []
      ∧ genAdds d (applySet s d) "" = [] := by
    apply List.append_eq_nil.mp
    simpa [jsonpatchCompare, genVal] using h
  have hnf : newFields s d = JFields.nil := by
    apply newFields_nil_of_genAdds s d ""
    have hd : genAdds d (applySet s d) ""
        = genAdds d (applyExisting s d) "" ++ genAdds d (newFields s d) "" :=
      genAdds_append_distrib d (applyExisting s d) (newFields s d) ""
    rw [hd] at h2
    exact (List.append_eq_nil.mp h2.2).2
  have happ : applySet s d = applyExisting s d := by
    show JFields.append (applyExisting s d) (newFields s d) = applyExisting s d
    rw [hnf, JFields.append_nil]
  have hblocks : ∀ b ∈ genOldFields d (applySet s d) "", b = [] := by
    intro b hb
    exact (List.flatten_eq_nil_iff.mp h2.1) b (List.mem_reverse.mpr hb)
  have hsub : ∀ k v, JFields.get? d k = some v →
      JFields.get? (applySet s d) k = some ((JFields.get? s k).getD v) := by
    intro k v hk
    rw [happ, applyExisting_get]
    simp [hk]
  have hfixed := applyExisting_fixed_of_blocks d (applySet s d) "" s hc hscal hsub hblocks
  rw [happ, hfixed]

/-- The diff an update-pathway `createPatch` computes is empty exactly when
the `$set` application changed nothing (for well-formed documents and
scalar-valued payloads). -/
theorem compare_applySet_nil_iff (s d : JFields)
    (hc : JFields.canon d = true)
    (hscal : ∀ k v, JFields.get? s k = some v → JVal.scalar v = true) :
    jsonpatchCompare d (applySet s d) = [] ↔ applySet s d = d :=
  ⟨applySet_fixed_of_compare_nil s d hc hscal,
   fun h => by rw [h]; exact jsonpatchCompare_self d hc⟩

theorem enumFrom_filterMap_pairing :
    ∀ (l : List StoredDoc) (os : List JFields) (i : Nat)
      (g : StoredDoc → StoredDoc) (G : StoredDoc → Option JFields → Option Patch),
    os.drop i = l.map (fun d => d.data) →
    (List.enumFrom i (l.map g)).filterMap (fun q => G q.2 os[q.1]?)
      = l.filterMap (fun d => G (g d) (some d.data))
  | [], _, _, _, _, _ => rfl
  | d :: t, os, i, g, G, h => by
      have hos : os[i]? = some d.data := by
        have h0 : (os.drop i)[0]? = os[i + 0]? := List.getElem?_drop os i 0
        rw [h] at h0
        simpa using h0.symm
      have hdrop : os.drop (i + 1) = t.map (fun d => d.data) := by
        have ht : (os.drop i).tail = os.drop (i + 1) := List.tail_drop os i
        rw [h] at ht
        simpa using ht.symm
      have hrec := enumFrom_filterMap_pairing t os (i + 1) g G hdrop
      rw [List.map_cons, List.enumFrom_cons, List.filterMap_cons, List.filterMap_cons]
      simp only [hos]
      cases hG : G (g d) (some d.data) <;> simp [hG, hrec]

theorem enum_filterMap_pairing (l : List StoredDoc) (os : List JFields)
    (g : StoredDoc → StoredDoc) (G : StoredDoc → Option JFields → Option Patch)
    (h : os = l.map (fun d => d.data)) :
    ((l.map g).enum).filterMap (fun q => G q.2 os[q.1]?)
      = l.filterMap (fun d => G (g d) (some d.data)) :=
  enumFrom_filterMap_pairing l os 0 g G (by rw [List.drop_zero]; exact h)

theorem filterMap_guard :
    ∀ (l : List StoredDoc) (p : StoredDoc → Bool) (f : StoredDoc → Patch),
    l.filterMap (fun d => if p d then some (f d) else none) = (l.filter p).map f
  | [], _, _ => rfl
  | d :: t, p, f => by
      by_cases h : p d <;>
        simp [List.filterMap_cons, List.filter_cons, h, filterMap_guard t p f]

/-- C2: a bulk update persists exactly one patch per document that it both
matched and actually modified; each patch's `ref` is that document's own id,
its `ops` are the diff of that same document's own pre-phase snapshot against
its own post-write state (the positional pairing of re-found documents with
`this._originals` lines up because the re-query by `$in` preserves collection
order), and the assembled record reads includes off the post-write document. -/
theorem c2_update_many_fanout (options : Options) (db : DB)
    (conditions setFields queryOptions : JFields)
    (hids : (db.docs.map StoredDoc.id).Nodup)
    (hcanon : ∀ d ∈ db.docs, JFields.canon d.data = true)
    (hscalar : JFields.allScalar setFields = true) :
    (runUpdateMany options db conditions setFields queryOptions).1.patches
      = db.patches ++ (modifiedDocs db conditions setFields).map (fun d =>
          { ref := d.id,
            ops := annotateOps options.trackOriginalValue false (some d.data)
              (jsonpatchCompare d.data (applySet setFields d.data)),
            includes := assembleIncludes options.includes (applySet setFields d.data)
              queryOptions }) := by
  have hscal : ∀ k v, JFields.get? setFields k = some v → JVal.scalar v = true :=
    scalar_of_allScalar setFields hscalar
  unfold runUpdateMany preUpdateMany mongoUpdateMany postUpdateMany
  dsimp only
  rw [setPayload_mkSetUpdate]
  have hlenM : (List.filter (fun d => matchesFields conditions d && docChanged setFields d)
      db.docs).length = (modifiedDocs db conditions setFields).length := rfl
  by_cases hzero : (modifiedDocs db conditions setFields).length = 0
  · rw [if_pos (by simp [zeroModGuard, hlenM, hzero])]
    rw [List.length_eq_zero.mp hzero]
    simp
  · rw [if_neg (by simp [zeroModGuard, hlenM, hzero])]
    have hmatched_ne :
        (db.docs.filter (matchesFields conditions)).length ≠ 0 := by
      intro hlen
      apply hzero
      have hnilm := List.length_eq_zero.mp hlen
      rw [show modifiedDocs db conditions setFields
          = (db.docs.filter (matchesFields conditions)).filter (docChanged setFields) from ?_]
      · rw [hnilm]
        rfl
      · rw [List.filter_filter]
        apply List.filter_congr
        intro d _
        exact Bool.and_comm _ _
    rw [if_neg (by
      simp only [List.length_map, beq_iff_eq]
      exact hmatched_ne)]
    dsimp only
    have hupdid : ∀ d : StoredDoc,
        (if matchesFields conditions d
         then ({ d with data := applySet setFields d.data } : StoredDoc) else d).id = d.id := by
      intro d
      by_cases h : matchesFields conditions d <;> simp [h]
    have hfilter :
        (db.docs.map (fun d =>
            if matchesFields conditions d
            then ({ d with data := applySet setFields d.data } : StoredDoc) else d)).filter
          (condMatches
            (.byIds ((db.docs.filter (matchesFields conditions)).map StoredDoc.id)))
          = (db.docs.filter (matchesFields conditions)).map (fun d =>
              if matchesFields conditions d
              then ({ d with data := applySet setFields d.data } : StoredDoc) else d) := by
      rw [List.filter_map]
      congr 1
      apply List.filter_congr
      intro d hd
      show ((db.docs.filter (matchesFields conditions)).map StoredDoc.id).contains
          (if matchesFields conditions d
           then ({ d with data := applySet setFields d.data } : StoredDoc) else d).id
        = matchesFields conditions d
      rw [hupdid d]
      by_cases hm : matchesFields conditions d
      · simp only [hm]
        have : d ∈ db.docs.filter (matchesFields conditions) :=
          List.mem_filter.mpr ⟨hd, hm⟩
        simpa using List.mem_map_of_mem StoredDoc.id this
      · simp only [hm]
        rw [List.contains_eq_any_beq]
        simp only [List.any_eq_false]
        intro x hx
        obtain ⟨d', hd', hid⟩ := List.mem_map.mp hx
        intro hbeq
        have hdd : d' = d := by
          apply List.inj_on_of_nodup_map hids (List.mem_of_mem_filter hd') hd
          rw [hid]
          have hx2 : d.id = x := by simpa using hbeq
          exact hx2.symm
        exact hm (by simpa [hdd] using (List.mem_filter.mp hd').2)
    rw [hfilter]
    have hpair := enum_filterMap_pairing
      (db.docs.filter (matchesFields conditions))
      ((db.docs.filter (matchesFields conditions)).map (fun x => x.data))
      (fun d =>
        if matchesFields conditions d
        then ({ d with data := applySet setFields d.data } : StoredDoc) else d)
      (fun doc orig => createPatch options
        { id := doc.id, isNew := false, original := orig, data := doc.data } queryOptions)
      rfl
    dsimp only at hpair
    rw [hpair]
    have hcongr : ∀ d ∈ db.docs.filter (matchesFields conditions),
        createPatch options
          { id := (if matchesFields conditions d
              then ({ d with data := applySet setFields d.data } : StoredDoc) else d).id,
            isNew := false, original := some d.data,
            data := (if matchesFields conditions d
              then ({ d with data := applySet setFields d.data } : StoredDoc) else d).data }
          queryOptions
        = if docChanged setFields d
          then some
            { ref := d.id,
              ops := annotateOps options.trackOriginalValue false (some d.data)
                (jsonpatchCompare d.data (applySet setFields d.data)),
              includes := assembleIncludes options.includes (applySet setFields d.data)
                queryOptions }
          else none := by
      intro d hd
      have hm : matchesFields conditions d = true := (List.mem_filter.mp hd).2
      have hcanond : JFields.canon d.data = true := hcanon d (List.mem_of_mem_filter hd)
      rw [if_pos hm]
      unfold createPatch
      by_cases hch : docChanged setFields d
      · have hne : rawOps false (some d.data) (applySet setFields d.data) ≠ [] := by
          intro hnil
          have := (compare_applySet_nil_iff setFields d.data hcanond hscal).mp
            (by simpa [rawOps] using hnil)
          rw [docChanged, bne_iff_ne] at hch
          exact hch this
        rw [if_neg (by simpa [List.isEmpty_iff] using hne), if_pos hch]
        rfl
      · have hfix : applySet setFields d.data = d.data := by
          rw [docChanged, bne_iff_ne] at hch
          simpa using hch
        have hnil : rawOps false (some d.data) (applySet setFields d.data) = [] := by
          rw [rawOps]
          simpa using (compare_applySet_nil_iff setFields d.data hcanond hscal).mpr hfix
        rw [if_pos (by simp [hnil]), if_neg hch]
    rw [List.filterMap_congr hcongr]
    rw [filterMap_guard]
    have hmod : (db.docs.filter (matchesFields conditions)).filter (docChanged setFields)
        = modifiedDocs db conditions setFields := by
      rw [List.filter_filter]
      apply List.filter_congr
      intro d _
      exact Bool.and_comm _ _
    rw [hmod]

/-- A concrete three-document store exercising the bulk-update pathway: two
documents match the filter below, of which only the first actually changes. -/
def exampleDocs : List StoredDoc :=
  [{ id := 1, data := .fcons "kind" (.str "k") (.fcons "n" (.num 1) .nil) },
   { id := 2, data := .fcons "kind" (.str "k") (.fcons "n" (.num 2) .nil) },
   { id := 3, data := .fcons "kind" (.str "x") (.fcons "n" (.num 3) .nil) }]

def exampleDB : DB := { docs := exampleDocs, patches := [] }

theorem c2_update_many_fanout_witness :
    ((exampleDB.docs.map StoredDoc.id).Nodup
      ∧ (∀ d ∈ exampleDB.docs, JFields.canon d.data = true)
      ∧ JFields.allScalar (.fcons "n" (.num 2) .nil) = true)
    ∧ (runUpdateMany {} exampleDB (.fcons "kind" (.str "k") .nil)
          (.fcons "n" (.num 2) .nil) .nil).1.patches
      = exampleDB.patches ++ (modifiedDocs exampleDB (.fcons "kind" (.str "k") .nil)
          (.fcons "n" (.num 2) .nil)).map (fun d =>
          { ref := d.id,
            ops := annotateOps ({} : Options).trackOriginalValue false (some d.data)
              (jsonpatchCompare d.data (applySet (.fcons "n" (.num 2) .nil) d.data)),
            includes := assembleIncludes ({} : Options).includes
              (applySet (.fcons "n" (.num 2) .nil) d.data) .nil }) :=
  ⟨⟨by decide, by decide, by decide⟩,
   c2_update_many_fanout {} exampleDB (.fcons "kind" (.str "k") .nil)
     (.fcons "n" (.num 2) .nil) .nil (by decide) (by decide) (by decide)⟩
